import Mathlib

/-!
Verification development for `util/trace/tracevis.py`, a script that parses
Snitch / MemPool / Banshee instruction traces and emits a Chrome Trace-Viewer
JSON document.  The Python source is shallowly embedded below: regex matching
of a raw text line is abstracted into the inductive `Line` (a line either
matches the primary instruction grammar, only the accelerator-only grammar, or
neither); every other computation (comment scanning, pattern synthesis, the
lookahead pre-pass, buffered flushing, duration arithmetic, the LRU symbol
cache, Python list slicing and the JSON emission) is translated directly from
the source.
-/

set_option autoImplicit false

namespace Tracevis

/-! ## String utilities (Python `in`, `startswith`, `str()`) -/

/-- Python `pat in s` substring test, on character lists. -/
def hasSub : List Char → List Char → Bool
  | _, [] => true
  | [], _ :: _ => false
  | c :: cs, p :: ps => (List.isPrefixOf (p :: ps) (c :: cs)) || hasSub cs (p :: ps)

/-- Python `pat in s` on strings. -/
def strContains (s pat : String) : Bool := hasSub s.toList pat.toList

/-- Python `s.startswith(p)`. -/
def strStarts (s p : String) : Bool := List.isPrefixOf p.toList s.toList

/-- Decimal digit characters of a natural number, fuelled so that it
reduces by iota; `n + 1` is always enough fuel. -/
def natDigitsAux : Nat → Nat → List Char
  | 0, _ => []
  | fuel + 1, n =>
    if n < 10 then [Char.ofNat (48 + n)]
    else natDigitsAux fuel (n / 10) ++ [Char.ofNat (48 + n % 10)]

/-- Decimal digit characters of a natural number (Python `str(n)`). -/
def natDigits (n : Nat) : List Char := natDigitsAux (n + 1) n

/-- Python `str(n)` for a natural number. -/
def natStr (n : Nat) : String := ⟨natDigits n⟩

/-- Python `str(i)` for an integer. -/
def intStr : Int → String
  | Int.ofNat m => natStr m
  | Int.negSucc m => "-" ++ natStr (m + 1)

/-! ## Data model

A trace line, as classified by the regex cascade of the source: `instr`
corresponds to a match of the compiled `re_line` (RTL_REGEX or
BANSHEE_REGEX), `acc` to a line matched only by ACC_LINE_REGEX, and
`unmatched` to a line matched by neither.  The seven `re_line` groups are
`(time, cycle, priv, pc, instr, args, comment)`; the numeric groups are
`\d+` so they carry their `int()` values. -/

structure Record where
  time : Nat
  cyc : Nat
  priv : String
  pc : String
  instr : String
  args : String
  cmt : String
  deriving DecidableEq, Repr

inductive Line where
  | instr (r : Record)
  | acc (time cyc : Nat) (priv cmt : String)
  | unmatched
  deriving DecidableEq, Repr

/-- Configuration surface of the script (argparse results). -/
structure Config where
  elf : String
  useTime : Bool
  banshee : Bool
  cache : Bool
  start : Int
  endIdx : Int
  deriving DecidableEq, Repr

/-- `time = int(time) if use_time else int(cyc)`: the configured timestamp basis. -/
def basis (useTime : Bool) (r : Record) : Nat := if useTime then r.time else r.cyc

/-- Basis value of an `acc`-only line. -/
def accBasis (useTime : Bool) (t c : Nat) : Nat := if useTime then t else c

/-! ## Lookahead correlator (`offload_lookahead`)

`re_load = re.compile(r'([a-z]*[0-9]*|zero) *<~~ Word')` and `re.search`
scans for the leftmost match.  The character classes of the three starred
pieces and the literal are pairwise disjoint, so greedy maximal-munch at
each start position is exact, and the `zero` alternative is subsumed by
`[a-z]*[0-9]*`; the functions below implement exactly that. -/

def isLowerCh (c : Char) : Bool := 'a' ≤ c && c ≤ 'z'

def isDigitCh (c : Char) : Bool := '0' ≤ c && c ≤ '9'

/-- Try to match `([a-z]*[0-9]*) *<~~ Word` at the head of `cs`; on success
return the group-1 characters. -/
def reLoadAt (cs : List Char) : Option (List Char) :=
  let (ls, r1) := cs.span isLowerCh
  let (ds, r2) := r1.span isDigitCh
  let r3 := r2.dropWhile (· = ' ')
  if List.isPrefixOf "<~~ Word".toList r3 then some (ls ++ ds) else none

/-- Leftmost search of `re_load` over the character list. -/
def reLoadScan : List Char → Option (List Char)
  | [] => none
  | c :: cs =>
    match reLoadAt (c :: cs) with
    | some g => some g
    | none => reLoadScan cs

/-- `re_load.search(cmt).group(1)`, as an `Option`. -/
def reLoadSearch (cmt : String) : Option String :=
  (reLoadScan cmt.toList).map fun g => ⟨g⟩

/-- An open lookahead query: `{'pat': pat, 'start': time}`. -/
structure Search where
  pat : String
  start : Nat
  deriving DecidableEq, Repr

/-- State of the `offload_lookahead` loop: the table built so far, the open
searches, and the most recent successfully matched `(basis time, comment)`
pair (the Python locals `time`/`cyc`/`cmt`, which persist across iterations
and are read with stale values on an unmatched line). -/
structure LookState where
  lah : List (Nat × Nat)
  searches : List Search
  last : Option (Nat × String)
  deriving DecidableEq, Repr

/-- Python dict assignment `m[k] = v` under first-key-wins lookup. -/
def updLah (m : List (Nat × Nat)) (k v : Nat) : List (Nat × Nat) :=
  if m.any (fun p => p.1 = k) then m.map (fun p => if p.1 = k then (k, v) else p)
  else m ++ [(k, v)]

/-- The per-line completion check: every open search whose pattern occurs in
the current comment records `lah[start] = time` and is removed
(`for s in searches: ...; [searches.remove(r) for r in removes]`). -/
def closeSearches (st : LookState) (time : Nat) (cmt : String) : LookState :=
  let removes := st.searches.filter fun s => strContains cmt s.pat
  { lah := removes.foldl (fun m s => updLah m s.start time) st.lah
    searches := removes.foldl (fun l s => l.erase s) st.searches
    last := some (time, cmt) }

/-- One iteration of the `offload_lookahead` loop.  On a line matching
neither grammar before any line has matched, the Python locals `time`, `cyc`
and `cmt` are unbound and `int(time)`/`int(cyc)` raises: modelled as
`.error ()`. -/
def lookStep (useTime : Bool) (st : LookState) (l : Line) : Except Unit LookState :=
  match l with
  | Line.instr r =>
    let t := basis useTime r
    let searches :=
      if strContains r.cmt "<~~ Word" then
        match reLoadSearch r.cmt with
        | some reg => st.searches ++ [⟨"(lsu) " ++ reg ++ "  <--", t⟩]
        | none => st.searches
      else st.searches
    Except.ok (closeSearches { st with searches := searches } t r.cmt)
  | Line.acc t c _ cmt =>
    Except.ok (closeSearches st (accBasis useTime t c) cmt)
  | Line.unmatched =>
    match st.last with
    | none => Except.error ()
    | some (t, cmt) => Except.ok (closeSearches st t cmt)

/-- The `offload_lookahead` loop over all lines. -/
def lookRun (useTime : Bool) (st : LookState) : List Line → Except Unit LookState
  | [] => Except.ok st
  | l :: ls =>
    match lookStep useTime st l with
    | Except.error e => Except.error e
    | Except.ok st' => lookRun useTime st' ls

/-- `offload_lookahead(lines)`: the issue-time → completion-time table. -/
def offload_lookahead (useTime : Bool) (lines : List Line) : Except Unit (List (Nat × Nat)) :=
  (lookRun useTime ⟨[], [], none⟩ lines).map (·.lah)

/-! ## Windowed event builder (`flush`) -/

/-- One Chrome trace event, as assembled in `flush`. -/
structure Event where
  name : String
  cat : String
  ph : String
  ts : Nat
  dur : Int
  pid : String
  tid : String
  argPc : String
  argInstr : String
  argTime : String
  argOrigin : String
  argInline : String
  deriving DecidableEq, Repr

/-- The `while not a2ls[0].startswith('0x')` loop collecting inlined frames;
`none` models the IndexError raised on an exhausted list. -/
def takeInlined : List String → Option (String × List String)
  | [] => none
  | s :: rest =>
    if strStarts s "0x" then some ("", s :: rest)
    else (takeInlined rest).map fun p => ("(inlined by) " ++ s ++ p.1, p.2)

/-- `[pc, func, file] = a2ls.pop(0), a2ls.pop(0), a2ls.pop(0)` followed by
the inlined-frame loop. -/
def popA2ls (a2ls : List String) : Option (String × String × String × String × List String) :=
  match a2ls with
  | pcL :: funcL :: fileL :: rest =>
    (takeInlined rest).map fun p => (pcL, funcL, fileL, p.1, p.2)
  | _ => none

/-- The event assembled for one drained record `r` with successor `r2`. -/
def mkEvent (cfg : Config) (lah : List (Nat × Nat)) (hartid : Nat) (r r2 : Record)
    (pcL funcL fileL inl : String) : Event :=
  let time := basis cfg.useTime r
  let next_time :=
    match List.lookup time lah with
    | some v => v
    | none => basis cfg.useTime r2
  let duration : Int := if cfg.banshee then 1 else (next_time : Int) - (time : Int)
  let hid : String := if cfg.banshee then r.priv else natStr hartid
  { name := r.instr, cat := "instr", ph := "X", ts := time, dur := duration
    pid := cfg.elf ++ ":hartid" ++ hid, tid := funcL
    argPc := pcL, argInstr := r.instr ++ " " ++ r.args
    argTime := natStr r.cyc, argOrigin := fileL, argInline := inl }

/-- The drain loop of `flush`: `for i in range(len(buf)-1)` pops the oldest
record, takes its duration from the next buffered record (overridden by the
lookahead table), consumes three addr2line output lines plus inlined
continuations, and assembles one `Event`.  Returns the emitted events, the
records left in the buffer (the newest one), and the unconsumed addr2line
lines. -/
def flushGo (cfg : Config) (lah : List (Nat × Nat)) (hartid : Nat) :
    List Record → List String → Option (List Event × List Record × List String)
  | [], a2ls => some ([], [], a2ls)
  | [r], a2ls => some ([], [r], a2ls)
  | r :: r2 :: rest, a2ls =>
    (popA2ls a2ls).bind fun q =>
      (flushGo cfg lah hartid (r2 :: rest) q.2.2.2.2).map fun p =>
        (mkEvent cfg lah hartid r r2 q.1 q.2.1 q.2.2.1 q.2.2.2.1 :: p.1, p.2.1, p.2.2)

/-! ## Symbol resolver (`addr2line_cache`, an `lru_cache(maxsize=1024)`) -/

def lruFind (a : Nat) : List (Nat × List String) → Option (List String)
  | [] => none
  | (k, v) :: rest => if k = a then some v else lruFind a rest

def lruErase (a : Nat) : List (Nat × List String) → List (Nat × List String)
  | [] => []
  | (k, v) :: rest => if k = a then rest else (k, v) :: lruErase a rest

/-- `@lru_cache(maxsize=1024) def addr2line_cache(addr)`: entries are kept
most-recently-used first; a hit moves the entry to the front without calling
the external tool, a miss calls the tool (`addr2line -e elf -f -a -i addr`),
inserts the result and evicts the least-recently-used entry past 1024.  The
returned flag records whether the external tool was invoked. -/
def addr2line_cache (tool : Nat → List String) (st : List (Nat × List String)) (addr : Nat) :
    List String × List (Nat × List String) × Bool :=
  match lruFind addr st with
  | some v => (v, (addr, v) :: lruErase addr st, false)
  | none =>
    let v := tool addr
    let st1 := (addr, v) :: st
    (v, if st1.length > 1024 then st1.dropLast else st1, true)

/-- Run the cache over a sequence of requested addresses, logging every
external invocation. -/
def lruRun (tool : Nat → List String) :
    List (Nat × List String) → List Nat → List Nat → List (Nat × List String) × List Nat
  | st, calls, [] => (st, calls)
  | st, calls, a :: rest =>
    let r := addr2line_cache tool st a
    lruRun tool r.2.1 (if r.2.2 then calls ++ [a] else calls) rest

/-- `int(addr, base=16)` on the hex strings produced by the grammars. -/
def hexDigit (c : Char) : Nat :=
  if isDigitCh c then c.toNat - 48
  else if 'a' ≤ c && c ≤ 'f' then c.toNat - 87
  else 0

def hexValAux : List Char → Nat → Nat
  | [], acc => acc
  | c :: cs, acc => hexValAux cs (acc * 16 + hexDigit c)

def hexVal (s : String) : Nat :=
  match s.toList with
  | '0' :: 'x' :: rest => hexValAux rest 0
  | l => hexValAux l 0

/-! ## Pipeline state and main loop -/

/-- The external collaborators: the per-address symbolizer invocation
(output lines of one `addr2line` call, including the trailing empty line
produced by `split('\n')`) and the batch invocation on all pcs. -/
structure Ext where
  tool : Nat → List String
  batchTool : List String → List String

/-- The process-wide mutable state of the script: the window buffer `buf`,
the lookahead table `lah`, the lru cache with its invocation log, and the
events written to the output stream so far. -/
structure PipeState where
  buf : List Record
  lah : List (Nat × Nat)
  cacheSt : List (Nat × List String)
  calls : List Nat
  events : List Event
  deriving DecidableEq, Repr

/-- Building `a2ls` in `flush`: per-address cached invocations each stripped
of their trailing empty line, or one batch invocation likewise stripped. -/
def buildA2ls (cfg : Config) (ext : Ext) (st : PipeState) (pcs : List String) :
    List String × List (Nat × List String) × List Nat :=
  if cfg.cache then
    pcs.foldl
      (fun acc addr =>
        let r := addr2line_cache ext.tool acc.2.1 (hexVal addr)
        (acc.1 ++ r.1.dropLast, r.2.1, if r.2.2 then acc.2.2 ++ [hexVal addr] else acc.2.2))
      ([], st.cacheSt, st.calls)
  else ((ext.batchTool pcs).dropLast, st.cacheSt, st.calls)

/-- `flush(buf, hartid)`. -/
def flush (cfg : Config) (ext : Ext) (hartid : Nat) (st : PipeState) : Option PipeState :=
  let b := buildA2ls cfg ext st (st.buf.map (·.pc))
  (flushGo cfg st.lah hartid st.buf b.1).map fun q =>
    { st with buf := q.2.1, cacheSt := b.2.1, calls := b.2.2, events := st.events ++ q.1 }

/-- The buffer after a primary-grammar match is appended (the first half of
`parse_line`). -/
def afterAppend (st : PipeState) (l : Line) : PipeState :=
  match l with
  | Line.instr r => { st with buf := st.buf ++ [r] }
  | _ => st

/-- `parse_line(line, hartid)`: append on a primary-grammar match, flush when
the buffer exceeds ten records, and return 0 unconditionally. -/
def parse_line (cfg : Config) (ext : Ext) (hartid : Nat) (st : PipeState) (l : Line) :
    Option (PipeState × Nat) :=
  let st1 := afterAppend st l
  if st1.buf.length > 10 then (flush cfg ext hartid st1).map fun st2 => (st2, 0)
  else some (st1, 0)

/-- The per-file line loop: `fails += parse_line(line, hartid); lines += 1`. -/
def parseLines (cfg : Config) (ext : Ext) (hartid : Nat) :
    PipeState → Nat → Nat → List Line → Option (PipeState × Nat × Nat)
  | st, fails, cnt, [] => some (st, fails, cnt)
  | st, fails, cnt, l :: ls =>
    match parse_line cfg ext hartid st l with
    | none => none
    | some (st', r) => parseLines cfg ext hartid st' (fails + r) (cnt + 1) ls

/-- Python list slicing `l[s:e]` with negative-index normalisation and
clamping. -/
def pyNorm (n : Nat) (i : Int) : Nat :=
  if i < 0 then (max 0 (i + n)).toNat else min i.toNat n

def pySlice {α : Type} (l : List α) (s e : Int) : List α :=
  (l.take (pyNorm l.length e)).drop (pyNorm l.length s)

/-- `hartid = int(parsed_nums[-1]) if len(parsed_nums) else hartid+1` with
`hartid = 0` freshly assigned just before. -/
def hartidOf (nums : List Nat) : Nat :=
  match nums.getLast? with
  | some n => n
  | none => 0 + 1

/-- Process the already-sliced lines of one trace file: recompute the
lookahead table (unless the accelerator dialect is active, in which case the
previous global table is kept), stream every line through `parse_line`, and
run the final `flush`.  Returns the new state and the pair printed by the
summary line, `(lines - fails, lines)`. -/
def processFileOn (cfg : Config) (ext : Ext) (st0 : PipeState) (nums : List Nat)
    (all_lines : List Line) : Option (PipeState × Nat × Nat) :=
  let hartid := hartidOf nums
  match (if cfg.banshee then Except.ok st0.lah else offload_lookahead cfg.useTime all_lines) with
  | Except.error _ => none
  | Except.ok lah =>
    match parseLines cfg ext hartid { st0 with lah := lah } 0 0 all_lines with
    | none => none
    | some (st, fails, cnt) =>
      match flush cfg ext hartid st with
      | none => none
      | some st' => some (st', cnt - fails, cnt)

/-- One trace file: the numbers found in its name by `re.findall(r'\d+', filename)`
and its raw lines (already classified by the regex cascade). -/
structure TraceFile where
  nums : List Nat
  lines : List Line

/-- Process one trace file: slice with `[args.start:args.end]`, then run. -/
def processFile (cfg : Config) (ext : Ext) (st : PipeState) (f : TraceFile) :
    Option (PipeState × Nat × Nat) :=
  processFileOn cfg ext st f.nums (pySlice f.lines cfg.start cfg.endIdx)

/-- The initial process-wide state (`buf = []`, `lah = {}`, empty cache). -/
def initState : PipeState := ⟨[], [], [], [], []⟩

/-- The main loop over all trace files, collecting the summary pairs. -/
def runFiles (cfg : Config) (ext : Ext) :
    PipeState → List (Nat × Nat) → List TraceFile → Option (PipeState × List (Nat × Nat))
  | st, reps, [] => some (st, reps)
  | st, reps, f :: fs =>
    match processFile cfg ext st f with
    | none => none
    | some (st', p, t) => runFiles cfg ext st' (reps ++ [(p, t)]) fs

/-! ## Event emitter -/

/-- The f-string written by `flush` for one event (braces appear as their
hex escapes). -/
def eventLine (e : Event) : String :=
  "\x7b\"name\": \"" ++ e.name ++ "\", \"cat\": \"" ++ e.cat ++ "\", \"ph\": \"" ++ e.ph ++
  "\", \"ts\": " ++ natStr e.ts ++ ", \"dur\": " ++ intStr e.dur ++ ", \"pid\": \"" ++ e.pid ++
  "\", \"tid\": \"" ++ e.tid ++ "\", \"args\": \x7b\"pc\": \"" ++ e.argPc ++
  "\", \"instr\": \"" ++ e.argInstr ++ "\", \"time\": \"" ++ e.argTime ++
  "\", \"Origin\": \"" ++ e.argOrigin ++ "\", \"inline\": \"" ++ e.argInline ++
  "\"\x7d\x7d,\n"

/-- Sequential concatenation of the strings written to the output file. -/
def concatAll : List String → String
  | [] => ""
  | s :: r => s ++ concatAll r

/-- The whole output document: the header written before the loop, one line
per event, and the footer `r'{}]}' '\n'`. -/
def outputDoc (evs : List Event) : String :=
  "\x7b\"traceEvents\": [\n" ++ concatAll (evs.map eventLine) ++ "\x7b\x7d]\x7d\n"

/-- The document produced by a whole run. -/
def runOutput (cfg : Config) (ext : Ext) (files : List TraceFile) : Option String :=
  (runFiles cfg ext initState [] files).map fun p => outputDoc p.1.events

/-! ## A JSON syntax model, to state output validity -/

inductive Json where
  | str (s : String)
  | num (i : Int)
  | arr (xs : List Json)
  | obj (fields : List (String × Json))

/-- JSON string escaping of one character. -/
def jescCh (c : Char) : List Char :=
  if c = '"' || c = '\\' then ['\\', c] else [c]

/-- JSON string escaping. -/
def jesc (s : String) : String := ⟨(s.toList.map jescCh).flatten⟩

mutual

/-- Render a JSON value with exactly the whitespace the script emits:
array items separated by `,\n` after an opening newline, object fields
separated by `, `. -/
def renderJ : Json → String
  | Json.str s => "\"" ++ jesc s ++ "\""
  | Json.num i => intStr i
  | Json.arr xs => "[\n" ++ renderItems xs ++ "]"
  | Json.obj fs => "\x7b" ++ renderFields fs ++ "\x7d"

def renderItems : List Json → String
  | [] => ""
  | [x] => renderJ x
  | x :: y :: r => renderJ x ++ ",\n" ++ renderItems (y :: r)

def renderFields : List (String × Json) → String
  | [] => ""
  | [(k, v)] => "\"" ++ jesc k ++ "\": " ++ renderJ v
  | (k, v) :: f :: r => "\"" ++ jesc k ++ "\": " ++ renderJ v ++ ", " ++ renderFields (f :: r)

end

/-- The JSON value one emitted event denotes. -/
def evJson (e : Event) : Json :=
  Json.obj [("name", Json.str e.name), ("cat", Json.str e.cat), ("ph", Json.str e.ph),
    ("ts", Json.num (e.ts : Int)), ("dur", Json.num e.dur), ("pid", Json.str e.pid),
    ("tid", Json.str e.tid),
    ("args", Json.obj [("pc", Json.str e.argPc), ("instr", Json.str e.argInstr),
      ("time", Json.str e.argTime), ("Origin", Json.str e.argOrigin),
      ("inline", Json.str e.argInline)])]

/-- The JSON document the run denotes: a `traceEvents` array holding every
event object followed by the empty-object sentinel that absorbs the final
separator. -/
def traceDoc (evs : List Event) : Json :=
  Json.obj [("traceEvents", Json.arr (evs.map evJson ++ [Json.obj []]))]

/-- A string free of JSON string metacharacters (quote and backslash). -/
def escFree (s : String) : Bool := s.toList.all fun c => !(c = '"' || c = '\\')

def eventEscFree (e : Event) : Bool :=
  escFree e.name && escFree e.cat && escFree e.ph && escFree e.pid && escFree e.tid &&
  escFree e.argPc && escFree e.argInstr && escFree e.argTime && escFree e.argOrigin &&
  escFree e.argInline

/-! ## An executable JSON syntax checker (recursive descent over the JSON
grammar), used to state output (in)validity on concrete documents -/

def lbraceCh : Char := Char.ofNat 123

def rbraceCh : Char := Char.ofNat 125

/-- Skip JSON whitespace. -/
def wsSkip : List Char → List Char
  | [] => []
  | c :: cs =>
    if c = ' ' || c = '\n' || c = '\t' || c = '\r' then wsSkip cs else c :: cs

def isHexCh (c : Char) : Bool :=
  isDigitCh c || ('a' ≤ c && c ≤ 'f') || ('A' ≤ c && c ≤ 'F')

/-- Parse the body of a JSON string after the opening quote; return the
remainder past the closing quote. -/
def pStr : List Char → Option (List Char)
  | [] => none
  | c :: cs =>
    if c = '"' then some cs
    else if c = '\\' then
      match cs with
      | [] => none
      | e :: cs2 =>
        if e = '"' || e = '\\' || e = '/' || e = 'b' || e = 'f' || e = 'n' ||
            e = 'r' || e = 't' then
          pStr cs2
        else if e = 'u' then
          match cs2 with
          | h1 :: h2 :: h3 :: h4 :: cs3 =>
            if isHexCh h1 && isHexCh h2 && isHexCh h3 && isHexCh h4 then pStr cs3 else none
          | _ => none
        else none
    else if c.toNat < 32 then none
    else pStr cs

/-- Require a literal continuation (for true/false/null). -/
def stripPre (lit : String) (cs : List Char) : Option (List Char) :=
  if List.isPrefixOf lit.toList cs then some (cs.drop lit.length) else none

/-- Parse a JSON number. -/
def pNum (cs : List Char) : Option (List Char) :=
  let csb := match cs with | '-' :: r => r | _ => cs
  let ip := csb.span isDigitCh
  if ip.1.isEmpty then none
  else
    let fr : Option (List Char) :=
      match ip.2 with
      | '.' :: rf =>
        let fp := rf.span isDigitCh
        if fp.1.isEmpty then none else some fp.2
      | _ => some ip.2
    match fr with
    | none => none
    | some r2 =>
      match r2 with
      | c :: re =>
        if c = 'e' || c = 'E' then
          let reb := match re with
            | s :: rr => if s = '+' || s = '-' then rr else re
            | [] => re
          let ep := reb.span isDigitCh
          if ep.1.isEmpty then none else some ep.2
        else some r2
      | [] => some r2

mutual

/-- Parse one JSON value; fuel bounds the recursion. -/
def pVal : Nat → List Char → Option (List Char)
  | 0, _ => none
  | fuel + 1, cs =>
    match wsSkip cs with
    | [] => none
    | c :: cs1 =>
      if c = '"' then pStr cs1
      else if c = lbraceCh then pObjBody fuel cs1
      else if c = '[' then pArrBody fuel cs1
      else if c = 't' then stripPre "rue" cs1
      else if c = 'f' then stripPre "alse" cs1
      else if c = 'n' then stripPre "ull" cs1
      else pNum (c :: cs1)

def pObjBody : Nat → List Char → Option (List Char)
  | 0, _ => none
  | fuel + 1, cs =>
    match wsSkip cs with
    | [] => none
    | c :: cs1 => if c = rbraceCh then some cs1 else pMember fuel (c :: cs1)

def pMember : Nat → List Char → Option (List Char)
  | 0, _ => none
  | fuel + 1, cs =>
    match cs with
    | [] => none
    | c :: cs1 =>
      if c = '"' then
        match pStr cs1 with
        | none => none
        | some cs2 =>
          match wsSkip cs2 with
          | ':' :: cs3 =>
            match pVal fuel cs3 with
            | none => none
            | some cs4 =>
              match wsSkip cs4 with
              | [] => none
              | c5 :: cs5 =>
                if c5 = ',' then pMember fuel (wsSkip cs5)
                else if c5 = rbraceCh then some cs5
                else none
          | _ => none
      else none

def pArrBody : Nat → List Char → Option (List Char)
  | 0, _ => none
  | fuel + 1, cs =>
    match wsSkip cs with
    | [] => none
    | c :: cs1 => if c = ']' then some cs1 else pItem fuel (c :: cs1)

def pItem : Nat → List Char → Option (List Char)
  | 0, _ => none
  | fuel + 1, cs =>
    match pVal fuel cs with
    | none => none
    | some cs2 =>
      match wsSkip cs2 with
      | [] => none
      | c :: cs3 =>
        if c = ',' then pItem fuel cs3
        else if c = ']' then some cs3
        else none

end

/-- A string is syntactically valid JSON when one value parse consumes it
entirely (up to trailing whitespace). -/
def jsonValid (s : String) : Bool :=
  match pVal (s.length + 10) s.toList with
  | some rest => (wsSkip rest).isEmpty
  | none => false

/-! ## Observers used in theorem statements -/

/-- The sublist of records a `flush` leaves in the buffer: the newest one. -/
def lastOne {α : Type} : List α → List α
  | [] => []
  | [a] => [a]
  | _ :: b :: l => lastOne (b :: l)

/-- The duration `flush` computes for a drained record `cur` whose buffered
successor is `nxt`. -/
def expectedDur (cfg : Config) (lah : List (Nat × Nat)) (cur nxt : Record) : Int :=
  if cfg.banshee then 1
  else
    (match List.lookup (basis cfg.useTime cur) lah with
     | some v => (v : Int)
     | none => (basis cfg.useTime nxt : Int)) - (basis cfg.useTime cur : Int)

/-- The process identifier `flush` attaches to a drained record. -/
def expectedPid (cfg : Config) (hartid : Nat) (r : Record) : String :=
  cfg.elf ++ ":hartid" ++ (if cfg.banshee then r.priv else natStr hartid)

/-- The records appended to the window buffer by a list of lines: one per
primary-grammar match. -/
def recordsOf (lines : List Line) : List Record :=
  lines.filterMap fun l =>
    match l with
    | Line.instr r => some r
    | _ => none

/-- The addresses currently cached, most recently used first. -/
def lruKeys (st : List (Nat × List String)) : List Nat := st.map (·.1)

/-- Whether a line matched one of the two grammars. -/
def isMatched (l : Line) : Bool :=
  match l with
  | Line.unmatched => false
  | _ => true

/-- Whether processing line `l` in the lookahead pre-pass opens a
`PendingSearch` whose start time is `K` (a deferred-load marker with a
parsable destination register at basis time `K`). -/
def regSearchAt (useTime : Bool) (K : Nat) (l : Line) : Bool :=
  match l with
  | Line.instr r =>
    strContains r.cmt "<~~ Word" && (reLoadSearch r.cmt).isSome && (basis useTime r == K)
  | _ => false

/-- The comment the completion check of the pre-pass reads on a matched
line. -/
def cmtOf : Line → String
  | Line.instr r => r.cmt
  | Line.acc _ _ _ cmt => cmt
  | Line.unmatched => ""

/-- The basis timestamp of a matched line. -/
def lineBasis (useTime : Bool) : Line → Nat
  | Line.instr r => basis useTime r
  | Line.acc t c _ _ => accBasis useTime t c
  | Line.unmatched => 0

/-! ## Concrete vectors used by witnesses and counterexamples -/

def cfgW : Config := ⟨"app.elf", false, false, true, 0, -1⟩

def cfgWB : Config := ⟨"app.elf", false, true, true, 0, -1⟩

def recWa : Record := ⟨50, 50, "M", "0x1000", "lw", "a5, 0(a0)", "a5  <~~ Word"⟩

def recWb : Record := ⟨60, 60, "M", "0x1004", "addi", "a1, a1, 1", "plain"⟩

def recWc : Record := ⟨80, 80, "M", "0x1008", "mul", "a2, a2, a2", "res (lsu) a5  <-- 0x64"⟩

def a2lsW : List String :=
  ["0x1000", "main", "main.c:3", "0x1004", "main", "main.c:4", "0x1008", "f", "f.c:1"]

def evW1 : Event :=
  ⟨"lw", "instr", "X", 50, 10, "app.elf:hartid7", "main", "0x1000", "lw a5, 0(a0)", "50",
    "main.c:3", ""⟩

def evW2 : Event :=
  ⟨"addi", "instr", "X", 60, 20, "app.elf:hartid7", "main", "0x1004", "addi a1, a1, 1", "60",
    "main.c:4", ""⟩

def evWB1 : Event :=
  ⟨"lw", "instr", "X", 50, 1, "app.elf:hartidM", "main", "0x1000", "lw a5, 0(a0)", "50",
    "main.c:3", ""⟩

def evWB2 : Event :=
  ⟨"addi", "instr", "X", 60, 1, "app.elf:hartidM", "main", "0x1004", "addi a1, a1, 1", "60",
    "main.c:4", ""⟩

def evW3 : Event :=
  ⟨"lw", "instr", "X", 50, 30, "app.elf:hartid7", "main", "0x1000", "lw a5, 0(a0)", "50",
    "main.c:3", ""⟩

def recWa2 : Record := ⟨60, 60, "M", "0x1004", "lw", "a5, 4(a0)", "a5  <~~ Word"⟩

def lkSt4 : LookState :=
  ⟨[], [⟨"(lsu) a5  <--", 50⟩, ⟨"(lsu) a5  <--", 60⟩], some (60, "a5  <~~ Word")⟩

def stfW4 : LookState :=
  ⟨[(50, 80), (60, 80)], [], some (80, "res (lsu) a5  <-- 0x64")⟩

def extW : Ext :=
  ⟨fun _ => ["0x0", "f", "o:1", ""],
   fun pcs => (pcs.map fun _ => ["0x0", "f", "o:1"]).flatten ++ [""]⟩

def fW3 : TraceFile := ⟨[3], [Line.instr recWa, Line.instr recWb, Line.unmatched]⟩

def fW8 : TraceFile := ⟨[3], [Line.instr recWa, Line.unmatched, Line.instr recWb]⟩

def evW4 : Event :=
  ⟨"lw", "instr", "X", 50, 10, "app.elf:hartid3", "f", "0x0", "lw a5, 0(a0)", "50", "o:1", ""⟩

def stW3 : PipeState :=
  ⟨[recWb], [], [(4100, ["0x0", "f", "o:1", ""]), (4096, ["0x0", "f", "o:1", ""])],
    [4096, 4100], [evW4]⟩

def stW8 : PipeState :=
  ⟨[recWa], [], [(4096, ["0x0", "f", "o:1", ""])], [4096], []⟩

def recEvil : Record := ⟨50, 50, "M", "0x1000", "csrr", "a0\"x", "c"⟩

def evEvil : Event :=
  ⟨"csrr", "instr", "X", 50, 10, "app.elf:hartid7", "main", "0x1000", "csrr a0\"x", "50",
    "main.c:3", ""⟩

/-! ## Lemmas about the drain loop -/

theorem lastOne_cons_cons {α : Type} (a b : α) (l : List α) :
    lastOne (a :: b :: l) = lastOne (b :: l) := by
  simp [lastOne]

theorem flushGo_shape (cfg : Config) (lah : List (Nat × Nat)) (hartid : Nat) :
    ∀ (buf : List Record) (a2ls : List String) (evs : List Event) (rem : List Record)
      (ar : List String), flushGo cfg lah hartid buf a2ls = some (evs, rem, ar) →
      evs.length = buf.length - 1 ∧ rem = lastOne buf := by
  intro buf
  induction buf with
  | nil =>
    intro a2ls evs rem ar h
    simp [flushGo] at h
    obtain ⟨h1, h2, h3⟩ := h
    subst h1; subst h2
    simp [lastOne]
  | cons r rest ih =>
    cases rest with
    | nil =>
      intro a2ls evs rem ar h
      simp [flushGo] at h
      obtain ⟨h1, h2, h3⟩ := h
      subst h1; subst h2
      simp [lastOne]
    | cons r2 rest' =>
      intro a2ls evs rem ar h
      simp only [flushGo, Option.bind_eq_some, Option.map_eq_some'] at h
      obtain ⟨q, hq, p, hp, heq⟩ := h
      obtain ⟨evs', b', rem'⟩ := p
      simp only [Prod.mk.injEq] at heq
      obtain ⟨h1, h2, h3⟩ := heq
      have hs := ih q.2.2.2.2 evs' b' rem' hp
      constructor
      · rw [← h1]; simp [hs.1]
      · rw [← h2, hs.2, lastOne_cons_cons]

theorem flushGo_fields (cfg : Config) (lah : List (Nat × Nat)) (hartid : Nat) :
    ∀ (buf : List Record) (a2ls : List String) (evs : List Event) (rem : List Record)
      (ar : List String), flushGo cfg lah hartid buf a2ls = some (evs, rem, ar) →
      ∀ i, (hi : i + 1 < buf.length) →
      ∃ ev, evs[i]? = some ev ∧
        ev.ts = basis cfg.useTime buf[i] ∧
        ev.dur = expectedDur cfg lah buf[i] buf[i + 1] ∧
        ev.pid = expectedPid cfg hartid buf[i] := by
  intro buf
  induction buf with
  | nil =>
    intro a2ls evs rem ar h i hi
    simp at hi
  | cons r rest ih =>
    cases rest with
    | nil =>
      intro a2ls evs rem ar h i hi
      simp at hi
    | cons r2 rest' =>
      intro a2ls evs rem ar h i hi
      simp only [flushGo, Option.bind_eq_some, Option.map_eq_some'] at h
      obtain ⟨q, hq, p, hp, heq⟩ := h
      obtain ⟨evs', b', rem'⟩ := p
      simp only [Prod.mk.injEq] at heq
      obtain ⟨h1, h2, h3⟩ := heq
      cases i with
      | zero =>
        refine ⟨mkEvent cfg lah hartid r r2 q.1 q.2.1 q.2.2.1 q.2.2.2.1, ?_, ?_, ?_, ?_⟩
        · rw [← h1]; simp
        · rfl
        · show (mkEvent cfg lah hartid r r2 q.1 q.2.1 q.2.2.1 q.2.2.2.1).dur =
            expectedDur cfg lah r r2
          simp only [mkEvent, expectedDur]
        · rfl
      | succ j =>
        have hj : j + 1 < (r2 :: rest').length := by
          simp at hi ⊢; omega
        obtain ⟨ev, he, hts, hdur, hpid⟩ := ih q.2.2.2.2 evs' b' rem' hp j hj
        refine ⟨ev, ?_, ?_, ?_, ?_⟩
        · rw [← h1]; simpa using he
        · simpa using hts
        · simpa using hdur
        · simpa using hpid

/-! ## Lemmas about Python dict update and the search lists -/

theorem lookup_map_upd_ne (k v K : Nat) (h : k ≠ K) :
    ∀ m : List (Nat × Nat),
      List.lookup K (m.map fun p => if p.1 = k then (k, v) else p) = List.lookup K m := by
  intro m
  induction m with
  | nil => rfl
  | cons p m ih =>
    obtain ⟨a, b⟩ := p
    simp only [List.map_cons]
    dsimp only
    by_cases hp : a = k
    · subst hp
      rw [if_pos rfl]
      have hK : (K == a) = false := by simp; omega
      simp [List.lookup, hK, ih]
    · rw [if_neg hp]
      simp [List.lookup, ih]

theorem lookup_append_single_ne (k v K : Nat) (h : k ≠ K) :
    ∀ m : List (Nat × Nat), List.lookup K (m ++ [(k, v)]) = List.lookup K m := by
  intro m
  induction m with
  | nil =>
    have hK : (K == k) = false := by simp; omega
    simp [List.lookup, hK]
  | cons p m ih =>
    obtain ⟨a, b⟩ := p
    by_cases hKa : K = a <;> simp [List.lookup, hKa, ih]

theorem lookup_updLah_ne (m : List (Nat × Nat)) (k v K : Nat) (h : k ≠ K) :
    List.lookup K (updLah m k v) = List.lookup K m := by
  unfold updLah
  split
  · exact lookup_map_upd_ne k v K h m
  · exact lookup_append_single_ne k v K h m

theorem lookup_map_upd_eq (k v : Nat) :
    ∀ m : List (Nat × Nat),
      List.lookup k (m.map fun p => if p.1 = k then (k, v) else p) =
        (List.lookup k m).map fun _ => v := by
  intro m
  induction m with
  | nil => rfl
  | cons p m ih =>
    obtain ⟨a, b⟩ := p
    simp only [List.map_cons]
    dsimp only
    by_cases hp : a = k
    · subst hp
      rw [if_pos rfl]
      simp [List.lookup, ih]
    · rw [if_neg hp]
      have hk : (k == a) = false := by simp; exact fun e => hp e.symm
      simp [List.lookup, hk, ih]

theorem lookup_isSome_of_any (k : Nat) :
    ∀ m : List (Nat × Nat), m.any (fun p => p.1 = k) = true →
      (List.lookup k m).isSome := by
  intro m
  induction m with
  | nil => simp
  | cons p m ih =>
    obtain ⟨a, b⟩ := p
    intro h
    by_cases hp : a = k
    · subst hp; simp [List.lookup]
    · have hk : (k == a) = false := by simp; exact fun e => hp e.symm
      simp only [List.lookup, hk]
      exact ih (by simpa [hp] using h)

theorem lookup_none_of_any_false (k : Nat) :
    ∀ m : List (Nat × Nat), m.any (fun p => p.1 = k) = false →
      List.lookup k m = none := by
  intro m
  induction m with
  | nil => simp
  | cons p m ih =>
    obtain ⟨a, b⟩ := p
    intro h
    simp only [List.any_cons, Bool.or_eq_false_iff] at h
    obtain ⟨h1, h2⟩ := h
    simp only [decide_eq_false_iff_not] at h1
    have hk : (k == a) = false := by
      simp only [beq_eq_false_iff_ne, ne_eq]
      exact fun e => h1 e.symm
    simp only [List.lookup, hk]
    exact ih h2

theorem lookup_append_single_self (k v : Nat) :
    ∀ m : List (Nat × Nat), List.lookup k m = none →
      List.lookup k (m ++ [(k, v)]) = some v := by
  intro m
  induction m with
  | nil => simp [List.lookup]
  | cons p m ih =>
    obtain ⟨a, b⟩ := p
    intro h
    rw [List.cons_append]
    cases hk : (k == a) with
    | true =>
      exfalso
      simp only [List.lookup, hk] at h
      simp at h
    | false =>
      simp only [List.lookup, hk] at h ⊢
      exact ih h

theorem lookup_updLah_self (m : List (Nat × Nat)) (k v : Nat) :
    List.lookup k (updLah m k v) = some v := by
  unfold updLah
  split
  · next hany =>
    rw [lookup_map_upd_eq]
    obtain ⟨w, hw⟩ := Option.isSome_iff_exists.mp (lookup_isSome_of_any k m hany)
    simp [hw]
  · next hany =>
    refine lookup_append_single_self k v m (lookup_none_of_any_false k m ?_)
    cases hm : (m.any fun p => decide (p.1 = k)) with
    | false => rfl
    | true => exact absurd hm hany

theorem lookup_foldl_upd_preserve (K t : Nat) :
    ∀ (rs : List Search) (lah : List (Nat × Nat)),
      (∀ s ∈ rs, s.start ≠ K) →
      List.lookup K (rs.foldl (fun m s => updLah m s.start t) lah) = List.lookup K lah := by
  intro rs
  induction rs with
  | nil => intro lah _; rfl
  | cons s rs ih =>
    intro lah h
    simp only [List.foldl_cons]
    rw [ih _ (fun x hx => h x (List.mem_cons_of_mem s hx)),
      lookup_updLah_ne _ _ _ _ (h s (List.mem_cons_self s rs))]

theorem lookup_foldl_upd_some (K t : Nat) :
    ∀ (rs : List Search) (lah : List (Nat × Nat)),
      List.lookup K lah = some t →
      List.lookup K (rs.foldl (fun m s => updLah m s.start t) lah) = some t := by
  intro rs
  induction rs with
  | nil => intro lah h; exact h
  | cons s rs ih =>
    intro lah h
    simp only [List.foldl_cons]
    apply ih
    by_cases hs : s.start = K
    · rw [← hs] at h ⊢; rw [lookup_updLah_self]
    · rw [lookup_updLah_ne _ _ _ _ hs]; exact h

theorem lookup_foldl_upd_hit (K t : Nat) :
    ∀ (rs : List Search) (lah : List (Nat × Nat)),
      (∃ s ∈ rs, s.start = K) →
      List.lookup K (rs.foldl (fun m s => updLah m s.start t) lah) = some t := by
  intro rs
  induction rs with
  | nil => intro lah h; simp at h
  | cons s rs ih =>
    intro lah h
    simp only [List.foldl_cons]
    by_cases hs : s.start = K
    · apply lookup_foldl_upd_some
      rw [← hs, lookup_updLah_self]
    · apply ih
      obtain ⟨x, hx, hxK⟩ := h
      rcases List.mem_cons.mp hx with rfl | hx'
      · exact absurd hxK hs
      · exact ⟨x, hx', hxK⟩

theorem foldl_erase_keep (x : Search) :
    ∀ (rs : List Search) (acc : List Search), (∀ s ∈ rs, s ≠ x) →
      rs.foldl (fun l s => l.erase s) (x :: acc) =
        x :: rs.foldl (fun l s => l.erase s) acc := by
  intro rs
  induction rs with
  | nil => intro acc _; rfl
  | cons s rs ih =>
    intro acc h
    simp only [List.foldl_cons]
    rw [List.erase_cons_tail]
    · exact ih _ (fun y hy => h y (List.mem_cons_of_mem s hy))
    · have hne := h s (List.mem_cons_self s rs)
      simp only [beq_iff_eq]
      exact fun e => hne e.symm

theorem foldl_erase_filter (P : Search → Bool) :
    ∀ l : List Search,
      (l.filter P).foldl (fun acc s => acc.erase s) l = l.filter fun s => !(P s) := by
  intro l
  induction l with
  | nil => rfl
  | cons x xs ih =>
    by_cases hx : P x
    · rw [List.filter_cons_of_pos hx]
      simp only [List.foldl_cons, List.erase_cons_head]
      rw [ih, List.filter_cons_of_neg (by simp [hx])]
    · rw [List.filter_cons_of_neg (by simpa using hx)]
      rw [foldl_erase_keep x _ _ ?hne, ih,
        List.filter_cons_of_pos (by simp [hx])]
      case hne =>
        intro s hs he
        subst he
        exact hx (List.of_mem_filter hs)

theorem closeSearches_searches (st : LookState) (t : Nat) (cmt : String) :
    (closeSearches st t cmt).searches =
      st.searches.filter fun s => !(strContains cmt s.pat) := by
  unfold closeSearches
  exact foldl_erase_filter _ _

theorem closeSearches_lah_stable (st : LookState) (t : Nat) (cmt : String) (K : Nat)
    (h : ∀ s ∈ st.searches, strContains cmt s.pat = true → s.start ≠ K) :
    List.lookup K (closeSearches st t cmt).lah = List.lookup K st.lah := by
  unfold closeSearches
  apply lookup_foldl_upd_preserve
  intro s hs
  exact h s (List.mem_of_mem_filter hs) (by simpa using List.of_mem_filter hs)

theorem closeSearches_lah_hit (st : LookState) (t : Nat) (cmt : String) (K : Nat)
    (h : ∃ s ∈ st.searches, strContains cmt s.pat = true ∧ s.start = K) :
    List.lookup K (closeSearches st t cmt).lah = some t := by
  unfold closeSearches
  apply lookup_foldl_upd_hit
  obtain ⟨s, hs, hc, hK⟩ := h
  exact ⟨s, List.mem_filter.mpr ⟨hs, by simpa using hc⟩, hK⟩

/-! ## Lemmas about the lookahead pre-pass -/

theorem lookRun_cons_ok (ut : Bool) (st : LookState) (l : Line) (ls : List Line)
    (st' : LookState) (h : lookRun ut st (l :: ls) = Except.ok st') :
    ∃ stm, lookStep ut st l = Except.ok stm ∧ lookRun ut stm ls = Except.ok st' := by
  simp only [lookRun] at h
  cases hs : lookStep ut st l with
  | error e => rw [hs] at h; simp at h
  | ok stm => rw [hs] at h; exact ⟨stm, rfl, h⟩

theorem lookRun_append_ok (ut : Bool) (ys : List Line) :
    ∀ (xs : List Line) (st st' : LookState),
      lookRun ut st (xs ++ ys) = Except.ok st' →
      ∃ stm, lookRun ut st xs = Except.ok stm ∧ lookRun ut stm ys = Except.ok st' := by
  intro xs
  induction xs with
  | nil => intro st st' h; exact ⟨st, rfl, h⟩
  | cons l xs ih =>
    intro st st' h
    rw [List.cons_append] at h
    obtain ⟨stm, hstep, hrest⟩ := lookRun_cons_ok ut st l (xs ++ ys) st' h
    obtain ⟨stmid, h1, h2⟩ := ih stm st' hrest
    refine ⟨stmid, ?_, h2⟩
    simp only [lookRun, hstep]
    exact h1

/-- On a matched line, one lookahead step is a `closeSearches` of the
possibly-extended search list, at the line basis time and comment. -/
theorem lookStep_matched (ut : Bool) (st : LookState) (l : Line) (hmat : isMatched l = true) :
    ∃ S : List Search,
      lookStep ut st l =
        Except.ok (closeSearches { st with searches := S } (lineBasis ut l) (cmtOf l)) ∧
      (∀ s ∈ st.searches, s ∈ S) ∧
      ∀ s ∈ S, s ∈ st.searches ∨ regSearchAt ut s.start l = true := by
  cases l with
  | instr r =>
    by_cases hm : strContains r.cmt "<~~ Word" = true
    · cases hrl : reLoadSearch r.cmt with
      | some reg =>
        refine ⟨st.searches ++ [⟨"(lsu) " ++ reg ++ "  <--", basis ut r⟩], ?_, ?_, ?_⟩
        · simp [lookStep, hm, hrl, lineBasis, cmtOf]
        · intro s hs; exact List.mem_append_left _ hs
        · intro s hs
          rcases List.mem_append.mp hs with h1 | h1
          · exact Or.inl h1
          · right
            have he : s = ⟨"(lsu) " ++ reg ++ "  <--", basis ut r⟩ := by simpa using h1
            subst he
            simp [regSearchAt, hm, hrl]
      | none =>
        refine ⟨st.searches, ?_, fun s hs => hs, fun s hs => Or.inl hs⟩
        simp [lookStep, hm, hrl, lineBasis, cmtOf]
    · refine ⟨st.searches, ?_, fun s hs => hs, fun s hs => Or.inl hs⟩
      rw [Bool.not_eq_true] at hm
      simp [lookStep, hm, lineBasis, cmtOf]
  | acc t c priv cmt =>
    refine ⟨st.searches, ?_, fun s hs => hs, fun s hs => Or.inl hs⟩
    simp [lookStep, lineBasis, cmtOf]
  | unmatched => simp [isMatched] at hmat

theorem key_stable_of_close (st : LookState) (S : List Search) (t : Nat) (cmt : String)
    (K : Nat) (hS : ∀ s ∈ S, s.start ≠ K) :
    (∀ s ∈ (closeSearches { st with searches := S } t cmt).searches, s.start ≠ K) ∧
      List.lookup K (closeSearches { st with searches := S } t cmt).lah =
        List.lookup K st.lah := by
  constructor
  · intro s hs
    rw [closeSearches_searches] at hs
    exact hS s (List.mem_of_mem_filter hs)
  · exact closeSearches_lah_stable _ t cmt K (fun s hs _ => hS s hs)

theorem lookStep_key_stable (ut : Bool) (K : Nat) (st st1 : LookState) (l : Line)
    (h : lookStep ut st l = Except.ok st1)
    (hst : ∀ s ∈ st.searches, s.start ≠ K)
    (hl : regSearchAt ut K l = false) :
    (∀ s ∈ st1.searches, s.start ≠ K) ∧ List.lookup K st1.lah = List.lookup K st.lah := by
  cases hmat : isMatched l with
  | true =>
    obtain ⟨S, hstepEq, hsub, hnew⟩ := lookStep_matched ut st l hmat
    rw [hstepEq] at h
    injection h with h
    subst h
    apply key_stable_of_close
    intro s hs
    rcases hnew s hs with h1 | h1
    · exact hst s h1
    · intro he
      rw [he] at h1
      rw [h1] at hl
      cases hl
  | false =>
    cases l with
    | instr r => simp [isMatched] at hmat
    | acc t c priv cmt => simp [isMatched] at hmat
    | unmatched =>
      simp only [lookStep] at h
      cases hlast : st.last with
      | none => rw [hlast] at h; simp at h
      | some p =>
        obtain ⟨t, cmt⟩ := p
        rw [hlast] at h
        injection h with h
        subst h
        exact key_stable_of_close st st.searches t cmt K hst

theorem lookRun_key_stable (ut : Bool) (K : Nat) :
    ∀ (ls : List Line) (st st' : LookState),
      lookRun ut st ls = Except.ok st' →
      (∀ s ∈ st.searches, s.start ≠ K) →
      (∀ l ∈ ls, regSearchAt ut K l = false) →
      (∀ s ∈ st'.searches, s.start ≠ K) ∧
        List.lookup K st'.lah = List.lookup K st.lah := by
  intro ls
  induction ls with
  | nil =>
    intro st st' h hst _
    simp only [lookRun] at h
    injection h with h
    subst h
    exact ⟨hst, rfl⟩
  | cons l ls ih =>
    intro st st' h hst hreg
    obtain ⟨stm, hstep, hrest⟩ := lookRun_cons_ok ut st l ls st' h
    obtain ⟨h1, h2⟩ :=
      lookStep_key_stable ut K st stm l hstep hst (hreg l (List.mem_cons_self _ _))
    obtain ⟨h3, h4⟩ := ih stm st' hrest h1 (fun x hx => hreg x (List.mem_cons_of_mem _ hx))
    exact ⟨h3, h4.trans h2⟩

/-- A pending search not completed by a matched line survives it, and the
same-start-same-pattern side condition is preserved. -/
theorem lookStep_survives (ut : Bool) (s : Search) (st st1 : LookState) (l : Line)
    (h : lookStep ut st l = Except.ok st1)
    (hs : s ∈ st.searches)
    (hmat : isMatched l = true)
    (hnc : strContains (cmtOf l) s.pat = false)
    (hcond : ∀ s' ∈ st.searches, s'.start = s.start → s'.pat = s.pat)
    (hreg : regSearchAt ut s.start l = false) :
    s ∈ st1.searches ∧
      ∀ s' ∈ st1.searches, s'.start = s.start → s'.pat = s.pat := by
  obtain ⟨S, hstepEq, hsub, hnew⟩ := lookStep_matched ut st l hmat
  rw [hstepEq] at h
  injection h with h
  subst h
  rw [closeSearches_searches]
  constructor
  · exact List.mem_filter.mpr ⟨hsub s hs, by simp [hnc]⟩
  · intro s' hs' he
    have hmem := List.mem_of_mem_filter hs'
    rcases hnew s' hmem with h1 | h1
    · exact hcond s' h1 he
    · rw [he] at h1
      rw [h1] at hreg
      cases hreg

/-- The first matched line whose comment contains the pattern of a pending
search records `lah[start] = basis` and removes every search with that start
time. -/
theorem lookStep_completes (ut : Bool) (s : Search) (st st1 : LookState) (l : Line) (T2 : Nat)
    (h : lookStep ut st l = Except.ok st1)
    (hs : s ∈ st.searches)
    (hmat : isMatched l = true)
    (hc : strContains (cmtOf l) s.pat = true)
    (hT2 : lineBasis ut l = T2)
    (hcond : ∀ s' ∈ st.searches, s'.start = s.start → s'.pat = s.pat)
    (hreg : regSearchAt ut s.start l = false) :
    List.lookup s.start st1.lah = some T2 ∧
      ∀ s' ∈ st1.searches, s'.start ≠ s.start := by
  obtain ⟨S, hstepEq, hsub, hnew⟩ := lookStep_matched ut st l hmat
  rw [hstepEq] at h
  injection h with h
  subst h
  constructor
  · rw [← hT2]
    exact closeSearches_lah_hit _ _ _ _ ⟨s, hsub s hs, hc, rfl⟩
  · intro s' hs' he
    rw [closeSearches_searches] at hs'
    have hmem := List.mem_of_mem_filter hs'
    have hkeep := List.of_mem_filter hs'
    rcases hnew s' hmem with h1 | h1
    · have hp := hcond s' h1 he
      rw [hp, hc] at hkeep
      simp at hkeep
    · rw [he] at h1
      rw [h1] at hreg
      cases hreg

/-- Main lookahead lemma: a pending search open at some state is completed
by the first subsequent matched line whose comment contains its pattern, and
the recorded completion time survives to the end of the pre-pass provided no
later line opens a search with the same start time. -/
theorem lookRun_pending_completes (ut : Bool) (s : Search) (T2 : Nat) :
    ∀ (mid : List Line) (lc : Line) (post : List Line) (st stf : LookState),
      lookRun ut st (mid ++ lc :: post) = Except.ok stf →
      s ∈ st.searches →
      (∀ s' ∈ st.searches, s'.start = s.start → s'.pat = s.pat) →
      (∀ l ∈ mid, isMatched l = true ∧ strContains (cmtOf l) s.pat = false ∧
        regSearchAt ut s.start l = false) →
      isMatched lc = true →
      strContains (cmtOf lc) s.pat = true →
      lineBasis ut lc = T2 →
      regSearchAt ut s.start lc = false →
      (∀ l ∈ post, regSearchAt ut s.start l = false) →
      List.lookup s.start stf.lah = some T2 := by
  intro mid
  induction mid with
  | nil =>
    intro lc post st stf hrun hs hcond _ hmat hc hT2 hregc hpost
    rw [List.nil_append] at hrun
    obtain ⟨stm, hstep, hrest⟩ := lookRun_cons_ok ut st lc post stf hrun
    obtain ⟨hlook, hnostart⟩ :=
      lookStep_completes ut s st stm lc T2 hstep hs hmat hc hT2 hcond hregc
    obtain ⟨_, hstable⟩ := lookRun_key_stable ut s.start post stm stf hrest hnostart hpost
    rw [hstable]
    exact hlook
  | cons l mid ih =>
    intro lc post st stf hrun hs hcond hmid hmat hc hT2 hregc hpost
    rw [List.cons_append] at hrun
    obtain ⟨stm, hstep, hrest⟩ := lookRun_cons_ok ut st l (mid ++ lc :: post) stf hrun
    have hl := hmid l (List.mem_cons_self _ _)
    obtain ⟨hs', hcond'⟩ :=
      lookStep_survives ut s st stm l hstep hs hl.1 hl.2.1 hcond hl.2.2
    exact ih lc post stm stf hrest hs' hcond'
      (fun x hx => hmid x (List.mem_cons_of_mem _ hx)) hmat hc hT2 hregc hpost

/-! ## Lemmas tracking the window buffer through the pipeline -/

theorem lastOne_idem {α : Type} : ∀ l : List α, lastOne (lastOne l) = lastOne l
  | [] => rfl
  | [_] => rfl
  | a :: b :: l => by rw [lastOne_cons_cons]; exact lastOne_idem (b :: l)

theorem lastOne_append_cons {α : Type} (y : α) (t : List α) :
    ∀ a : List α, lastOne (a ++ y :: t) = lastOne (y :: t) := by
  intro a
  induction a with
  | nil => rfl
  | cons x a ih =>
    cases a with
    | nil => simp [lastOne]
    | cons z a'' =>
      rw [List.cons_append, show (z :: a'') ++ y :: t = z :: (a'' ++ y :: t) from rfl,
        lastOne_cons_cons]
      exact ih

theorem lastOne_congr_append {α : Type} {A B : List α} (h : lastOne A = lastOne B)
    (C : List α) : lastOne (A ++ C) = lastOne (B ++ C) := by
  cases C with
  | nil => simpa using h
  | cons y t => rw [lastOne_append_cons, lastOne_append_cons]

theorem recordsOf_cons (l : Line) (ls : List Line) :
    recordsOf (l :: ls) = recordsOf [l] ++ recordsOf ls := by
  cases l <;> rfl

theorem flush_buf (cfg : Config) (ext : Ext) (hartid : Nat) (st st' : PipeState)
    (h : flush cfg ext hartid st = some st') : st'.buf = lastOne st.buf := by
  simp only [flush, Option.map_eq_some'] at h
  obtain ⟨q, hq, heq⟩ := h
  obtain ⟨evs, rem, ar⟩ := q
  rw [← heq]
  exact (flushGo_shape cfg st.lah hartid st.buf _ evs rem ar hq).2

theorem parse_line_buf (cfg : Config) (ext : Ext) (hartid : Nat) (st : PipeState)
    (l : Line) (st' : PipeState) (n : Nat)
    (h : parse_line cfg ext hartid st l = some (st', n)) :
    lastOne st'.buf = lastOne ((afterAppend st l).buf) := by
  simp only [parse_line] at h
  split at h
  · simp only [Option.map_eq_some'] at h
    obtain ⟨st2, hfl, heq⟩ := h
    simp only [Prod.mk.injEq] at heq
    rw [← heq.1, flush_buf cfg ext hartid _ st2 hfl, lastOne_idem]
  · simp only [Option.some.injEq, Prod.mk.injEq] at h
    rw [← h.1]

theorem afterAppend_buf (st : PipeState) (l : Line) :
    (afterAppend st l).buf = st.buf ++ recordsOf [l] := by
  cases l <;> simp [afterAppend, recordsOf]

theorem parseLines_lastOne (cfg : Config) (ext : Ext) (hartid : Nat) :
    ∀ (ls : List Line) (st : PipeState) (fails cnt : Nat) (st' : PipeState) (f' c' : Nat),
      parseLines cfg ext hartid st fails cnt ls = some (st', f', c') →
      lastOne st'.buf = lastOne (st.buf ++ recordsOf ls) := by
  intro ls
  induction ls with
  | nil =>
    intro st fails cnt st' f' c' h
    simp only [parseLines, Option.some.injEq, Prod.mk.injEq] at h
    rw [← h.1]
    simp [recordsOf]
  | cons l ls ih =>
    intro st fails cnt st' f' c' h
    simp only [parseLines] at h
    cases hpl : parse_line cfg ext hartid st l with
    | none => rw [hpl] at h; simp at h
    | some p =>
      obtain ⟨st1, n⟩ := p
      rw [hpl] at h
      have h1 := ih st1 (fails + n) (cnt + 1) st' f' c' h
      have h2 := parse_line_buf cfg ext hartid st l st1 n hpl
      rw [afterAppend_buf] at h2
      rw [h1, recordsOf_cons, ← List.append_assoc]
      exact lastOne_congr_append h2 (recordsOf ls)

theorem processFileOn_buf (cfg : Config) (ext : Ext) (st0 : PipeState) (nums : List Nat)
    (lines : List Line) (st' : PipeState) (p t : Nat)
    (h : processFileOn cfg ext st0 nums lines = some (st', p, t)) :
    st'.buf = lastOne (st0.buf ++ recordsOf lines) := by
  unfold processFileOn at h
  cases hla : (if cfg.banshee then Except.ok st0.lah
      else offload_lookahead cfg.useTime lines) with
  | error e => rw [hla] at h; simp at h
  | ok lah =>
    rw [hla] at h
    dsimp only at h
    cases hpl : parseLines cfg ext (hartidOf nums) { st0 with lah := lah } 0 0 lines with
    | none => rw [hpl] at h; simp at h
    | some q =>
      obtain ⟨st1, fails, cnt⟩ := q
      rw [hpl] at h
      dsimp only at h
      cases hfl : flush cfg ext (hartidOf nums) st1 with
      | none => rw [hfl] at h; simp at h
      | some st2 =>
        rw [hfl] at h
        simp only [Option.some.injEq, Prod.mk.injEq] at h
        rw [← h.1, flush_buf cfg ext (hartidOf nums) st1 st2 hfl]
        have h1 := parseLines_lastOne cfg ext (hartidOf nums) lines
          { st0 with lah := lah } 0 0 st1 fails cnt hpl
        exact h1

/-! ## Lemmas about the lru symbol cache -/

theorem lruKeys_cons (k : Nat) (v : List String) (st : List (Nat × List String)) :
    lruKeys ((k, v) :: st) = k :: lruKeys st := rfl

theorem lruFind_mem (a : Nat) :
    ∀ (st : List (Nat × List String)) (v : List String),
      lruFind a st = some v → a ∈ lruKeys st := by
  intro st
  induction st with
  | nil => intro v h; simp [lruFind] at h
  | cons p st ih =>
    obtain ⟨k, w⟩ := p
    intro v h
    simp only [lruFind] at h
    rw [lruKeys_cons, List.mem_cons]
    split at h
    · next hk => exact Or.inl hk.symm
    · exact Or.inr (ih _ h)

theorem lruFind_none (a : Nat) :
    ∀ st : List (Nat × List String), lruFind a st = none → a ∉ lruKeys st := by
  intro st
  induction st with
  | nil => intro _ h; simp [lruKeys] at h
  | cons p st ih =>
    obtain ⟨k, w⟩ := p
    intro h
    simp only [lruFind] at h
    rw [lruKeys_cons, List.mem_cons]
    split at h
    · next hk => simp at h
    · next hk =>
      rintro (h1 | h1)
      · exact hk h1.symm
      · exact ih h h1

theorem mem_lruKeys_lruErase (a x : Nat) (hne : x ≠ a) :
    ∀ st : List (Nat × List String),
      (x ∈ lruKeys (lruErase a st) ↔ x ∈ lruKeys st) := by
  intro st
  induction st with
  | nil => simp [lruErase]
  | cons p st ih =>
    obtain ⟨k, w⟩ := p
    simp only [lruErase]
    split
    · next hk =>
      subst hk
      rw [lruKeys_cons, List.mem_cons]
      constructor
      · exact Or.inr
      · rintro (h1 | h1)
        · exact absurd h1 hne
        · exact h1
    · rw [lruKeys_cons, lruKeys_cons, List.mem_cons, List.mem_cons, ih]

theorem lruErase_nodup_not_mem (a : Nat) :
    ∀ st : List (Nat × List String), (lruKeys st).Nodup →
      a ∉ lruKeys (lruErase a st) := by
  intro st
  induction st with
  | nil => intro _ h; simp [lruErase, lruKeys] at h
  | cons p st ih =>
    obtain ⟨k, w⟩ := p
    intro hnd
    rw [lruKeys_cons, List.nodup_cons] at hnd
    simp only [lruErase]
    split
    · next hk => subst hk; exact hnd.1
    · next hk =>
      rw [lruKeys_cons, List.mem_cons]
      rintro (h1 | h1)
      · exact hk h1.symm
      · exact ih hnd.2 h1

theorem lruErase_nodup (a : Nat) :
    ∀ st : List (Nat × List String), (lruKeys st).Nodup →
      (lruKeys (lruErase a st)).Nodup := by
  intro st
  induction st with
  | nil => intro _; simp [lruErase, lruKeys]
  | cons p st ih =>
    obtain ⟨k, w⟩ := p
    intro hnd
    rw [lruKeys_cons, List.nodup_cons] at hnd
    simp only [lruErase]
    split
    · exact hnd.2
    · next hka =>
      rw [lruKeys_cons, List.nodup_cons]
      refine ⟨?_, ih hnd.2⟩
      intro hk
      exact hnd.1 ((mem_lruKeys_lruErase a k hka st).mp hk)

/-- Invariant run of the lru cache: with at most 1024 distinct addresses in
play, nothing is ever evicted; the final cache holds exactly the addresses
seen, and each requested address is passed to the external tool exactly
once (on its first miss). -/
theorem lruRun_invariant (tool : Nat → List String) :
    ∀ (todo : List Nat) (st : List (Nat × List String)) (calls : List Nat)
      (bound : Finset Nat),
      (lruKeys st).Nodup →
      (∀ x ∈ lruKeys st, x ∈ bound) →
      (∀ x ∈ todo, x ∈ bound) →
      bound.card ≤ 1024 →
      (∀ x, x ∈ lruKeys (lruRun tool st calls todo).1 ↔
        (x ∈ lruKeys st ∨ x ∈ todo)) ∧
      (lruKeys (lruRun tool st calls todo).1).Nodup ∧
      ∀ a, ((lruRun tool st calls todo).2).count a =
        calls.count a + (if a ∉ lruKeys st ∧ a ∈ todo then 1 else 0) := by
  intro todo
  induction todo with
  | nil =>
    intro st calls bound hnd hsub _ hcard
    refine ⟨by simp [lruRun], by simpa [lruRun] using hnd, ?_⟩
    intro a
    simp [lruRun]
  | cons x rest ih =>
    intro st calls bound hnd hsub htodo hcard
    simp only [lruRun]
    cases hfind : lruFind x st with
    | some v =>
      have hxmem : x ∈ lruKeys st := lruFind_mem x st v hfind
      simp only [addr2line_cache, hfind]
      rw [if_neg (by simp : ¬(false = true))]
      have hnd1 : (lruKeys ((x, v) :: lruErase x st)).Nodup := by
        rw [lruKeys_cons, List.nodup_cons]
        exact ⟨lruErase_nodup_not_mem x st hnd, lruErase_nodup x st hnd⟩
      have hset1 : ∀ y, y ∈ lruKeys ((x, v) :: lruErase x st) ↔ y ∈ lruKeys st := by
        intro y
        by_cases hy : y = x
        · subst hy
          constructor
          · intro _; exact hxmem
          · intro _; rw [lruKeys_cons]; exact List.mem_cons_self _ _
        · rw [lruKeys_cons, List.mem_cons, mem_lruKeys_lruErase x y hy st]
          constructor
          · rintro (h1 | h1)
            · exact absurd h1 hy
            · exact h1
          · exact Or.inr
      obtain ⟨hmem, hnd2, hcnt⟩ := ih ((x, v) :: lruErase x st) calls bound hnd1
        (fun y hy => hsub y ((hset1 y).mp hy))
        (fun y hy => htodo y (List.mem_cons_of_mem _ hy)) hcard
      refine ⟨?_, hnd2, ?_⟩
      · intro y
        rw [hmem y, hset1 y, List.mem_cons]
        constructor
        · rintro (h1 | h1)
          · exact Or.inl h1
          · exact Or.inr (Or.inr h1)
        · rintro (h1 | rfl | h1)
          · exact Or.inl h1
          · exact Or.inl hxmem
          · exact Or.inr h1
      · intro a
        rw [hcnt a]
        by_cases hax : a = x
        · subst hax
          have h1 : ¬(a ∉ lruKeys st ∧ a ∈ a :: rest) := fun hc => hc.1 hxmem
          have h2 : ¬(a ∉ lruKeys ((a, v) :: lruErase a st) ∧ a ∈ rest) := by
            rintro ⟨hc, _⟩
            exact hc (by rw [lruKeys_cons]; exact List.mem_cons_self _ _)
          rw [if_neg h1, if_neg h2]
        · have he : (a ∉ lruKeys ((x, v) :: lruErase x st) ∧ a ∈ rest) ↔
              (a ∉ lruKeys st ∧ a ∈ x :: rest) := by
            constructor
            · rintro ⟨h1, h2⟩
              exact ⟨fun hh => h1 ((hset1 a).mpr hh), List.mem_cons_of_mem _ h2⟩
            · rintro ⟨h1, h2⟩
              refine ⟨fun hh => h1 ((hset1 a).mp hh), ?_⟩
              rcases List.mem_cons.mp h2 with rfl | h3
              · exact absurd rfl hax
              · exact h3
          by_cases hc : a ∉ lruKeys st ∧ a ∈ x :: rest
          · rw [if_pos (he.mpr hc), if_pos hc]
          · rw [if_neg (fun hh => hc (he.mp hh)), if_neg hc]
    | none =>
      have hxnot : x ∉ lruKeys st := lruFind_none x st hfind
      simp only [addr2line_cache, hfind]
      have hnd1 : (lruKeys ((x, tool x) :: st)).Nodup := by
        rw [lruKeys_cons, List.nodup_cons]
        exact ⟨hxnot, hnd⟩
      have hsub1 : ∀ y ∈ lruKeys ((x, tool x) :: st), y ∈ bound := by
        intro y hy
        rw [lruKeys_cons, List.mem_cons] at hy
        rcases hy with rfl | h2
        · exact htodo y (List.mem_cons_self _ _)
        · exact hsub y h2
      have hnodrop : ¬((x, tool x) :: st).length > 1024 := by
        intro hlen
        have hlen1 : (lruKeys ((x, tool x) :: st)).length ≤ bound.card := by
          rw [← List.toFinset_card_of_nodup hnd1]
          exact Finset.card_le_card fun y hy => hsub1 y (List.mem_toFinset.mp hy)
        have hlen2 : (lruKeys ((x, tool x) :: st)).length = ((x, tool x) :: st).length := by
          simp [lruKeys]
        omega
      rw [if_neg hnodrop, if_pos trivial]
      obtain ⟨hmem, hnd2, hcnt⟩ := ih ((x, tool x) :: st) (calls ++ [x]) bound hnd1
        hsub1 (fun y hy => htodo y (List.mem_cons_of_mem _ hy)) hcard
      refine ⟨?_, hnd2, ?_⟩
      · intro y
        rw [hmem y, lruKeys_cons, List.mem_cons, List.mem_cons]
        constructor
        · rintro ((rfl | h1) | h1)
          · exact Or.inr (Or.inl rfl)
          · exact Or.inl h1
          · exact Or.inr (Or.inr h1)
        · rintro (h1 | rfl | h1)
          · exact Or.inl (Or.inr h1)
          · exact Or.inl (Or.inl rfl)
          · exact Or.inr h1
      · intro a
        rw [hcnt a, List.count_append]
        by_cases hax : a = x
        · subst hax
          have h1 : (a ∉ lruKeys st ∧ a ∈ a :: rest) := ⟨hxnot, List.mem_cons_self _ _⟩
          have h2 : ¬(a ∉ lruKeys ((a, tool a) :: st) ∧ a ∈ rest) := by
            rintro ⟨hc, _⟩
            exact hc (by rw [lruKeys_cons]; exact List.mem_cons_self _ _)
          rw [if_neg h2, if_pos h1]
          simp
        · have h3 : List.count a [x] = 0 := by
            simp only [List.count_cons, List.count_nil, beq_iff_eq]
            rw [if_neg (fun e => hax e.symm)]
          rw [h3]
          have he : (a ∉ lruKeys ((x, tool x) :: st) ∧ a ∈ rest) ↔
              (a ∉ lruKeys st ∧ a ∈ x :: rest) := by
            rw [lruKeys_cons]
            constructor
            · rintro ⟨h1, h2⟩
              exact ⟨fun hh => h1 (List.mem_cons_of_mem _ hh), List.mem_cons_of_mem _ h2⟩
            · rintro ⟨h1, h2⟩
              refine ⟨?_, ?_⟩
              · rw [List.mem_cons]
                rintro (rfl | hh)
                · exact hax rfl
                · exact h1 hh
              · rcases List.mem_cons.mp h2 with rfl | h3
                · exact absurd rfl hax
                · exact h3
          by_cases hc : a ∉ lruKeys st ∧ a ∈ x :: rest
          · rw [if_pos (he.mpr hc), if_pos hc]
          · rw [if_neg (fun hh => hc (he.mp hh)), if_neg hc]

/-! ## Lemmas about the JSON rendering of the output stream -/

theorem jescCh_id (c : Char) (h : (!(c = '"' || c = '\\' : Bool)) = true) : jescCh c = [c] := by
  unfold jescCh
  rw [if_neg]
  simpa using h

theorem jesc_of_escFree (s : String) (h : escFree s = true) : jesc s = s := by
  unfold escFree at h
  unfold jesc
  cases s with
  | mk data =>
    simp only [String.toList] at h ⊢
    congr 1
    induction data with
    | nil => rfl
    | cons c cs ih =>
      rw [List.all_cons, Bool.and_eq_true] at h
      rw [List.map_cons, List.flatten_cons, jescCh_id c h.1, ih h.2]
      rfl

theorem intStr_natCast (n : Nat) : intStr (n : Int) = natStr n := rfl

theorem renderItems_append_single (z : Json) :
    ∀ xs : List Json, renderItems (xs ++ [z]) =
      concatAll (xs.map fun x => renderJ x ++ ",\n") ++ renderJ z := by
  intro xs
  induction xs with
  | nil =>
    simp only [List.nil_append, List.map_nil, concatAll]
    rw [String.empty_append]
    rfl
  | cons x xs ih =>
    cases xs with
    | nil =>
      show renderItems [x, z] = concatAll [renderJ x ++ ",\n"] ++ renderJ z
      simp only [renderItems, concatAll]
      rw [String.append_empty, String.append_assoc]
    | cons y ys =>
      rw [show (x :: y :: ys) ++ [z] = x :: ((y :: ys) ++ [z]) from rfl,
        show (y :: ys) ++ [z] = y :: (ys ++ [z]) from rfl]
      rw [renderItems]
      rw [show y :: (ys ++ [z]) = (y :: ys) ++ [z] from rfl, ih]
      simp only [List.map_cons, concatAll, String.append_assoc]

theorem eventLine_render (e : Event) (h : eventEscFree e = true) :
    eventLine e = renderJ (evJson e) ++ ",\n" := by
  unfold eventEscFree at h
  simp only [Bool.and_eq_true] at h
  obtain ⟨⟨⟨⟨⟨⟨⟨⟨⟨h1, h2⟩, h3⟩, h4⟩, h5⟩, h6⟩, h7⟩, h8⟩, h9⟩, h10⟩ := h
  simp only [evJson, renderJ, renderFields, renderItems]
  rw [jesc_of_escFree _ h1, jesc_of_escFree _ h2, jesc_of_escFree _ h3,
    jesc_of_escFree _ h4, jesc_of_escFree _ h5, jesc_of_escFree _ h6,
    jesc_of_escFree _ h7, jesc_of_escFree _ h8, jesc_of_escFree _ h9,
    jesc_of_escFree _ h10]
  simp only [show jesc "name" = "name" from rfl, show jesc "cat" = "cat" from rfl,
    show jesc "ph" = "ph" from rfl, show jesc "ts" = "ts" from rfl,
    show jesc "dur" = "dur" from rfl, show jesc "pid" = "pid" from rfl,
    show jesc "tid" = "tid" from rfl, show jesc "args" = "args" from rfl,
    show jesc "pc" = "pc" from rfl, show jesc "instr" = "instr" from rfl,
    show jesc "time" = "time" from rfl, show jesc "Origin" = "Origin" from rfl,
    show jesc "inline" = "inline" from rfl, intStr_natCast]
  simp only [eventLine,
    show ("\x7b\"name\": \"" : String) = "\x7b" ++ "\"" ++ "name" ++ "\": " ++ "\"" from rfl,
    show ("\", \"cat\": \"" : String) = "\"" ++ ", " ++ "\"" ++ "cat" ++ "\": " ++ "\"" from rfl,
    show ("\", \"ph\": \"" : String) = "\"" ++ ", " ++ "\"" ++ "ph" ++ "\": " ++ "\"" from rfl,
    show ("\", \"ts\": " : String) = "\"" ++ ", " ++ "\"" ++ "ts" ++ "\": " from rfl,
    show (", \"dur\": " : String) = ", " ++ "\"" ++ "dur" ++ "\": " from rfl,
    show (", \"pid\": \"" : String) = ", " ++ "\"" ++ "pid" ++ "\": " ++ "\"" from rfl,
    show ("\", \"tid\": \"" : String) = "\"" ++ ", " ++ "\"" ++ "tid" ++ "\": " ++ "\"" from rfl,
    show ("\", \"args\": \x7b\"pc\": \"" : String) =
      "\"" ++ ", " ++ "\"" ++ "args" ++ "\": " ++ "\x7b" ++ "\"" ++ "pc" ++ "\": " ++ "\""
      from rfl,
    show ("\", \"instr\": \"" : String) = "\"" ++ ", " ++ "\"" ++ "instr" ++ "\": " ++ "\""
      from rfl,
    show ("\", \"time\": \"" : String) = "\"" ++ ", " ++ "\"" ++ "time" ++ "\": " ++ "\""
      from rfl,
    show ("\", \"Origin\": \"" : String) = "\"" ++ ", " ++ "\"" ++ "Origin" ++ "\": " ++ "\""
      from rfl,
    show ("\", \"inline\": \"" : String) = "\"" ++ ", " ++ "\"" ++ "inline" ++ "\": " ++ "\""
      from rfl,
    show ("\"\x7d\x7d,\n" : String) = "\"" ++ "\x7d" ++ "\x7d" ++ ",\n" from rfl,
    String.append_assoc]

/-! ## Claim theorems -/

/-- Claim C1: for every record drained by `flush` (outside the accelerator
dialect) that has a successor record in the window buffer and whose basis
timestamp has no entry in the lookahead table, the emitted event duration
equals the successor record basis timestamp (time or cycle, per the
configured basis) minus the record own basis timestamp. -/
theorem claim1_duration (cfg : Config) (lah : List (Nat × Nat)) (hartid : Nat)
    (buf : List Record) (a2ls : List String) (evs : List Event) (rem : List Record)
    (ar : List String) (i : Nat)
    (hb : cfg.banshee = false)
    (h : flushGo cfg lah hartid buf a2ls = some (evs, rem, ar))
    (hi : i + 1 < buf.length)
    (hl : List.lookup (basis cfg.useTime buf[i]) lah = none) :
    ∃ ev, evs[i]? = some ev ∧
      ev.dur = (basis cfg.useTime buf[i + 1] : Int) - (basis cfg.useTime buf[i] : Int) := by
  obtain ⟨ev, he, hts, hdur, hpid⟩ := flushGo_fields cfg lah hartid buf a2ls evs rem ar h i hi
  refine ⟨ev, he, ?_⟩
  rw [hdur]
  simp [expectedDur, hb, hl]

theorem claim1_duration_witness :
    ∃ ev, ([evW1, evW2] : List Event)[0]? = some ev ∧
      ev.dur = (basis cfgW.useTime recWb : Int) - (basis cfgW.useTime recWa : Int) :=
  claim1_duration cfgW [] 7 [recWa, recWb, recWc] a2lsW [evW1, evW2] [recWc]
    ["0x1008", "f", "f.c:1"] 0 rfl (by decide) (by decide) (by decide)

/-- Claim C5: for every record drained while the accelerator (banshee)
dialect is active, the emitted event has duration exactly 1 and its process
identifier is derived from the record own privilege/hart field rather than
the filename-derived hart id, regardless of neighboring timestamps and of
any lookahead entry. -/
theorem claim5_banshee (cfg : Config) (lah : List (Nat × Nat)) (hartid : Nat)
    (buf : List Record) (a2ls : List String) (evs : List Event) (rem : List Record)
    (ar : List String) (i : Nat)
    (hb : cfg.banshee = true)
    (h : flushGo cfg lah hartid buf a2ls = some (evs, rem, ar))
    (hi : i + 1 < buf.length) :
    ∃ ev, evs[i]? = some ev ∧ ev.dur = 1 ∧
      ev.pid = cfg.elf ++ ":hartid" ++ (buf[i]).priv := by
  obtain ⟨ev, he, hts, hdur, hpid⟩ := flushGo_fields cfg lah hartid buf a2ls evs rem ar h i hi
  refine ⟨ev, he, ?_, ?_⟩
  · rw [hdur]; simp [expectedDur, hb]
  · rw [hpid]; simp [expectedPid, hb]

theorem claim5_banshee_witness :
    ∃ ev, ([evWB1, evWB2] : List Event)[1]? = some ev ∧ ev.dur = 1 ∧
      ev.pid = cfgWB.elf ++ ":hartid" ++ recWb.priv :=
  claim5_banshee cfgWB [] 7 [recWa, recWb, recWc] a2lsW [evWB1, evWB2] [recWc]
    ["0x1008", "f", "f.c:1"] 1 rfl (by decide) (by decide)

/-- Claim C2: a deferred-load record at issue basis time `T` (its comment
carries the deferred-load marker with a parsable destination register)
whose synthesized completion pattern first occurs in the effective comment
of a later line at basis time `T2` yields `lookahead[T] = T2` in the
pre-pass, and the event `flush` emits for a record drained at basis time
`T` has duration `T2 - T` rather than the gap to the next buffered
record. -/
theorem claim2_deferred_load (cfg : Config) (pre mid post : List Line) (rI : Record)
    (lc : Line) (lah : List (Nat × Nat)) (reg pat : String) (T T2 : Nat)
    (hartid : Nat) (buf : List Record) (a2ls : List String) (evs : List Event)
    (rem : List Record) (ar : List String) (i : Nat)
    (hb : cfg.banshee = false)
    (hok : offload_lookahead cfg.useTime
      (pre ++ Line.instr rI :: (mid ++ lc :: post)) = Except.ok lah)
    (hmark : strContains rI.cmt "<~~ Word" = true)
    (hreg : reLoadSearch rI.cmt = some reg)
    (hT : basis cfg.useTime rI = T)
    (hpat : pat = "(lsu) " ++ reg ++ "  <--")
    (hpre : ∀ l ∈ pre, regSearchAt cfg.useTime T l = false)
    (hself : strContains rI.cmt pat = false)
    (hmid : ∀ l ∈ mid, isMatched l = true ∧ strContains (cmtOf l) pat = false ∧
      regSearchAt cfg.useTime T l = false)
    (hmat : isMatched lc = true)
    (hlcc : strContains (cmtOf lc) pat = true)
    (hT2 : lineBasis cfg.useTime lc = T2)
    (hlcr : regSearchAt cfg.useTime T lc = false)
    (hpost : ∀ l ∈ post, regSearchAt cfg.useTime T l = false)
    (hfl : flushGo cfg lah hartid buf a2ls = some (evs, rem, ar))
    (hi : i + 1 < buf.length)
    (hrec : basis cfg.useTime buf[i] = T) :
    List.lookup T lah = some T2 ∧
      ∃ ev, evs[i]? = some ev ∧ ev.dur = (T2 : Int) - (T : Int) := by
  have hlook : List.lookup T lah = some T2 := by
    unfold offload_lookahead at hok
    cases hrun : lookRun cfg.useTime ⟨[], [], none⟩
        (pre ++ Line.instr rI :: (mid ++ lc :: post)) with
    | error e => rw [hrun] at hok; simp [Except.map] at hok
    | ok stf =>
      rw [hrun] at hok
      simp only [Except.map] at hok
      injection hok with hok
      obtain ⟨st1, hpreRun, hrest⟩ := lookRun_append_ok cfg.useTime _ pre _ _ hrun
      have hst1 : ∀ s ∈ st1.searches, s.start ≠ T :=
        (lookRun_key_stable cfg.useTime T pre _ st1 hpreRun
          (by intro s hs; simp at hs) hpre).1
      obtain ⟨st2, hstep, hrest2⟩ := lookRun_cons_ok cfg.useTime st1 _ _ _ hrest
      have hstepEq : lookStep cfg.useTime st1 (Line.instr rI) = Except.ok
          (closeSearches { st1 with searches := st1.searches ++ [⟨pat, T⟩] }
            (basis cfg.useTime rI) rI.cmt) := by
        simp [lookStep, hmark, hreg, hpat, hT]
      rw [hstepEq] at hstep
      injection hstep with hstep
      subst hstep
      have hsmem : (⟨pat, T⟩ : Search) ∈
          (closeSearches { st1 with searches := st1.searches ++ [⟨pat, T⟩] }
            (basis cfg.useTime rI) rI.cmt).searches := by
        rw [closeSearches_searches]
        exact List.mem_filter.mpr ⟨List.mem_append_right _ (by simp), by simp [hself]⟩
      have hcond2 : ∀ s' ∈
          (closeSearches { st1 with searches := st1.searches ++ [⟨pat, T⟩] }
            (basis cfg.useTime rI) rI.cmt).searches,
          s'.start = T → s'.pat = pat := by
        intro s' hs' he
        rw [closeSearches_searches] at hs'
        have hmem := List.mem_of_mem_filter hs'
        rcases List.mem_append.mp hmem with h1 | h1
        · exact absurd he (hst1 s' h1)
        · have h2 : s' = ⟨pat, T⟩ := by simpa using h1
          rw [h2]
      have hfin := lookRun_pending_completes cfg.useTime ⟨pat, T⟩ T2 mid lc post _ stf
        hrest2 hsmem hcond2 hmid hmat hlcc hT2 hlcr hpost
      rw [← hok]
      exact hfin
  refine ⟨hlook, ?_⟩
  obtain ⟨ev, he, hts, hdur, hpid⟩ := flushGo_fields cfg lah hartid buf a2ls evs rem ar hfl i hi
  refine ⟨ev, he, ?_⟩
  rw [hdur]
  simp [expectedDur, hb, hrec, hlook]

theorem claim2_deferred_load_witness :
    List.lookup 50 [(50, 80)] = some 80 ∧
      ∃ ev, ([evW3, evW2] : List Event)[0]? = some ev ∧ ev.dur = (80 : Int) - (50 : Int) :=
  claim2_deferred_load cfgW [] [Line.instr recWb] [] recWa (Line.instr recWc) [(50, 80)]
    "a5" "(lsu) a5  <--" 50 80 7 [recWa, recWb, recWc] a2lsW [evW3, evW2] [recWc]
    ["0x1008", "f", "f.c:1"] 0 rfl rfl (by decide) (by decide) (by decide) rfl
    (by decide) (by decide) (by decide) (by decide) (by decide) (by decide) (by decide)
    (by decide) (by decide) (by decide) (by decide)

/-- Claim C4 counterexample: two deferred-load searches for the same
register `a5`, opened at basis times 50 and 60, are BOTH closed by the
single later completion line at basis time 80 — the resulting table maps
both issue times to 80 — whereas the claim states a completion line closes
only the oldest open search for that register, which would leave the
60-search open (no second occurrence exists) and the table without an entry
for 60. -/
theorem claim4_counterexample :
    offload_lookahead false [Line.instr recWa, Line.instr recWa2, Line.instr recWc]
      = Except.ok [(50, 80), (60, 80)] ∧
      List.lookup 60 [(50, 80), (60, 80)] = some 80 ∧
      List.lookup 50 [(50, 80), (60, 80)] = some 80 :=
  ⟨rfl, rfl, rfl⟩

/-- Claim C4 amended: every pending search is matched at most once, by the
first subsequent matched line whose effective comment contains its pattern;
but one completion line closes EVERY open search whose pattern it contains,
so concurrently open same-register searches are all closed together by the
first occurrence of their shared pattern (all mapping to the same
completion time), not strictly one per occurrence in first-opened order;
distinct registers' searches remain independent. -/
theorem claim4_all_closed (ut : Bool) (s1 s2 : Search) (T2 : Nat) (mid post : List Line)
    (lc : Line) (st stf : LookState)
    (hpat : s1.pat = s2.pat)
    (hrun : lookRun ut st (mid ++ lc :: post) = Except.ok stf)
    (hs1 : s1 ∈ st.searches) (hs2 : s2 ∈ st.searches)
    (hcond1 : ∀ s' ∈ st.searches, s'.start = s1.start → s'.pat = s1.pat)
    (hcond2 : ∀ s' ∈ st.searches, s'.start = s2.start → s'.pat = s2.pat)
    (hmid : ∀ l ∈ mid, isMatched l = true ∧ strContains (cmtOf l) s1.pat = false ∧
      regSearchAt ut s1.start l = false ∧ regSearchAt ut s2.start l = false)
    (hmat : isMatched lc = true)
    (hlcc : strContains (cmtOf lc) s1.pat = true)
    (hT2 : lineBasis ut lc = T2)
    (hlcr1 : regSearchAt ut s1.start lc = false)
    (hlcr2 : regSearchAt ut s2.start lc = false)
    (hpost : ∀ l ∈ post,
      regSearchAt ut s1.start l = false ∧ regSearchAt ut s2.start l = false) :
    List.lookup s1.start stf.lah = some T2 ∧ List.lookup s2.start stf.lah = some T2 := by
  constructor
  · exact lookRun_pending_completes ut s1 T2 mid lc post st stf hrun hs1 hcond1
      (fun l hl => ⟨(hmid l hl).1, (hmid l hl).2.1, (hmid l hl).2.2.1⟩) hmat hlcc hT2 hlcr1
      (fun l hl => (hpost l hl).1)
  · exact lookRun_pending_completes ut s2 T2 mid lc post st stf hrun hs2 hcond2
      (fun l hl => ⟨(hmid l hl).1, by rw [← hpat]; exact (hmid l hl).2.1,
        (hmid l hl).2.2.2⟩)
      hmat (by rw [← hpat]; exact hlcc) hT2 hlcr2 (fun l hl => (hpost l hl).2)

theorem claim4_all_closed_witness :
    List.lookup 50 stfW4.lah = some 80 ∧ List.lookup 60 stfW4.lah = some 80 :=
  claim4_all_closed false ⟨"(lsu) a5  <--", 50⟩ ⟨"(lsu) a5  <--", 60⟩ 80 [] []
    (Line.instr recWc) lkSt4 stfW4 rfl rfl (by decide) (by decide) (by decide)
    (by decide) (by decide) (by decide) (by decide) (by decide) (by decide) (by decide)
    (by decide)

/-- Claim C3 counterexample: a file whose processed slice decodes two
records ends with one event emitted and one record still buffered — the
final flush does NOT drain every record of the file, and the window buffer
(beyond the symbol cache and hart-id assignment) is carried into the next
file's processing: the last decoded record of a file is not emitted before
the next file's decoding begins. -/
theorem claim3_counterexample :
    processFile cfgW extW initState fW3 = some (stW3, 2, 2) ∧
      stW3.buf = [recWb] ∧
      stW3.events.length = 1 ∧
      recordsOf (pySlice fW3.lines cfgW.start cfgW.endIdx) = [recWa, recWb] :=
  ⟨rfl, rfl, rfl, rfl⟩

/-- Claim C3 amended: the final flush drains all but the newest buffered
record: after a file is processed, the pipeline buffer holds exactly the
newest decoded record of the processed slice (or stays as it was when the
slice decoded nothing) — that record is carried, still unemitted, into the
next file's processing; in accelerator mode the lookahead table is likewise
carried. -/
theorem claim3_final_buffer (cfg : Config) (ext : Ext) (st0 : PipeState) (nums : List Nat)
    (lines : List Line) (st' : PipeState) (p t : Nat)
    (h : processFileOn cfg ext st0 nums lines = some (st', p, t)) :
    st'.buf = lastOne (st0.buf ++ recordsOf lines) :=
  processFileOn_buf cfg ext st0 nums lines st' p t h

theorem claim3_final_buffer_witness :
    stW3.buf = lastOne (initState.buf ++ recordsOf
      (pySlice fW3.lines cfgW.start cfgW.endIdx)) :=
  claim3_final_buffer cfgW extW initState fW3.nums
    (pySlice fW3.lines cfgW.start cfgW.endIdx) stW3 2 2 rfl

/-- Claim C8: an unmatched line is indeed skipped (no record is decoded for
it) and is not an error, but the per-file summary does NOT report the
number of lines actually matched: `parse_line` returns 0 unconditionally,
so the fails counter never increments and the summary always claims
`lines` of `lines` parsed.  Here the processed slice holds one matched and
one unmatched line, yet the report is (2, 2) while only 1 line matched. -/
theorem claim8_report :
    processFile cfgW extW initState fW8 = some (stW8, 2, 2) ∧
      (pySlice fW8.lines cfgW.start cfgW.endIdx).countP isMatched = 1 ∧
      stW8.buf = [recWa] :=
  ⟨rfl, rfl, rfl⟩

/-- Claim C10: with the default configuration (`--start` 0, `--end` -1) the
slice `readlines()[start:end]` excludes the final line of every trace file,
so an instruction on a file's last line is never decoded, correlated, or
emitted: the whole per-file pipeline runs on `lines.dropLast`. -/
theorem claim10_last_line (cfg : Config) (ext : Ext) (st : PipeState) (f : TraceFile)
    (hs : cfg.start = 0) (he : cfg.endIdx = -1) :
    pySlice f.lines cfg.start cfg.endIdx = f.lines.dropLast ∧
      processFile cfg ext st f = processFileOn cfg ext st f.nums f.lines.dropLast := by
  have h1 : pySlice f.lines cfg.start cfg.endIdx = f.lines.dropLast := by
    rw [hs, he]
    unfold pySlice pyNorm
    have h2 : ((-1 : Int) < 0) = True := by simp
    have h3 : ¬((0 : Int) < 0) := by omega
    rw [if_pos (by omega : (-1 : Int) < 0), if_neg h3]
    have h4 : (max 0 (-1 + (f.lines.length : Int))).toNat = f.lines.length - 1 := by
      omega
    have h5 : min (Int.toNat 0) f.lines.length = 0 := by simp
    rw [h4, h5, List.drop_zero, List.dropLast_eq_take]
  refine ⟨h1, ?_⟩
  unfold processFile
  rw [h1]

theorem claim10_last_line_witness :
    pySlice fW3.lines cfgW.start cfgW.endIdx = fW3.lines.dropLast ∧
      processFile cfgW extW initState fW3 =
        processFileOn cfgW extW initState fW3.nums fW3.lines.dropLast :=
  claim10_last_line cfgW extW initState fW3 rfl rfl

set_option maxRecDepth 40000 in
/-- Claim C6 counterexample: a matched trace line whose args field contains
a quote character (admitted by the `(.+)` args group of the grammar) is
interpolated raw into the event f-string, producing an output document the
JSON grammar rejects — so not every run emits syntactically valid JSON.
The empty and quote-free documents are accepted (positive controls showing
the sentinel absorbs the trailing separator). -/
theorem claim6_counterexample :
    flushGo cfgW [] 7 [recEvil, recWb] ["0x1000", "main", "main.c:3", "0x1004"]
      = some ([evEvil], [recWb], ["0x1004"]) ∧
      jsonValid (outputDoc [evEvil]) = false ∧
      jsonValid (outputDoc []) = true ∧
      jsonValid (outputDoc [evW1]) = true :=
  ⟨rfl, rfl, rfl, rfl⟩

/-- Claim C6 amended: the emitted document is exactly the rendering of the
JSON document whose single field traceEvents holds the event objects
followed by the empty-object sentinel that absorbs the final separator (so
there is no dangling separator before the closing bracket, and the
document is syntactically valid JSON, parseable without stripping
anything) — provided every interpolated field is free of the JSON string
metacharacters quote and backslash, which the raw interpolation does not
escape. -/
theorem claim6_output_render (evs : List Event) (h : ∀ e ∈ evs, eventEscFree e = true) :
    outputDoc evs = renderJ (traceDoc evs) ++ "\n" := by
  unfold outputDoc traceDoc
  simp only [renderJ, renderFields]
  rw [renderItems_append_single]
  rw [List.map_map]
  have hm : List.map eventLine evs =
      List.map ((fun x => renderJ x ++ ",\n") ∘ evJson) evs :=
    List.map_congr_left fun e he => eventLine_render e (h e he)
  rw [hm]
  simp only [show jesc "traceEvents" = "traceEvents" from rfl,
    show ("\x7b\"traceEvents\": [\n" : String) =
      "\x7b" ++ "\"" ++ "traceEvents" ++ "\": " ++ "[\n" from rfl,
    show ("\x7b\x7d]\x7d\n" : String) = "\x7b" ++ "\x7d" ++ "]" ++ "\x7d" ++ "\n" from rfl,
    renderJ, renderFields, String.empty_append, String.append_empty, String.append_assoc]

theorem claim6_output_render_witness :
    outputDoc [evW1, evW2] = renderJ (traceDoc [evW1, evW2]) ++ "\n" :=
  claim6_output_render [evW1, evW2] (by decide)

/-- Claim C7: in the default per-address cached mode, when the run's
distinct addresses fit the 1024-entry lru cache (so nothing is ever
evicted), resolving the same program-counter address any number of times
invokes the external symbolizer exactly once for that address across the
whole run. -/
theorem claim7_cache_once (tool : Nat → List String) (addrs : List Nat)
    (hcap : addrs.toFinset.card ≤ 1024) (a : Nat) (ha : a ∈ addrs) :
    ((lruRun tool [] [] addrs).2).count a = 1 := by
  have h := (lruRun_invariant tool addrs [] [] addrs.toFinset
    (by simp [lruKeys]) (by simp [lruKeys]) (fun x hx => List.mem_toFinset.mpr hx)
    hcap).2.2 a
  rw [h]
  simp [lruKeys, ha]

theorem claim7_cache_once_witness :
    ((lruRun extW.tool [] [] [4096, 4096, 4100]).2).count 4096 = 1 :=
  claim7_cache_once extW.tool [4096, 4096, 4100] (by decide) 4096 (by decide)

/-- Claim C9: on an input whose first processed line matches neither the
primary instruction grammar nor the accelerator-only grammar,
`offload_lookahead` fails with an unbound-local error (the unconditional
`int(time)`/`int(cyc)` reads locals set only by a successful match) instead
of skipping the unmatched line. -/
theorem claim9_first_unmatched (useTime : Bool) (rest : List Line) :
    offload_lookahead useTime (Line.unmatched :: rest) = Except.error () := rfl

end Tracevis
